import Mathlib

/-!
Verification of the scroll-acceleration engine (main.py / vec2.py).

The numeric domain of the Python code (ints and floats used
interchangeably) is modelled as the real numbers.  All functions are
translated directly from the source:

* `signR`, `Vec2` and its operations  — vec2.py
* `pyRound`                            — Python's built-in `round`
                                         (round-half-to-even)
* `keepRecent`, `estimateStep`,
  `estimate_current_scroll_velocity`   — `_estimate_current_scroll_velocity`
* `acceleration_scheme_get_scroll_multiplier`
                                       — the acceleration policy
* `classifyGenerated`,
  `outstandingAfterClassify`           — the classification part of `_on_scroll`
* `scrollFn`                           — `_scroll`
* `on_scroll`                          — `_on_scroll`
-/

namespace MouseAccel

/-- `sign` from vec2.py: componentwise −1 / 0 / 1. -/
noncomputable def signR (v : ℝ) : ℝ := if v < 0 then -1 else if 0 < v then 1 else 0

/-- `Vec2` from vec2.py. -/
@[ext]
structure Vec2 where
  x : ℝ
  y : ℝ

noncomputable instance : DecidableEq Vec2 := fun a b =>
  decidable_of_iff (a.x = b.x ∧ a.y = b.y) (by cases a; cases b; simp)

/-- `Vec2()`: the zero vector. -/
def Vec2.zero : Vec2 := ⟨0, 0⟩

noncomputable instance : Add Vec2 := ⟨fun a b => ⟨a.x + b.x, a.y + b.y⟩⟩

noncomputable instance : Sub Vec2 := ⟨fun a b => ⟨a.x - b.x, a.y - b.y⟩⟩

/-- `Vec2.__mul__` with a scalar argument. -/
noncomputable def Vec2.smul (a : Vec2) (c : ℝ) : Vec2 := ⟨a.x * c, a.y * c⟩

/-- `Vec2.sign`. -/
noncomputable def Vec2.signV (a : Vec2) : Vec2 := ⟨signR a.x, signR a.y⟩

/-- `Vec2.l2`, with the exact fast paths of the source. -/
noncomputable def Vec2.l2 (a : Vec2) : ℝ :=
  if a.x = 0 ∧ a.y = 0 then 0
  else if a.x ≠ 0 ∧ a.y = 0 then |a.x|
  else if a.y ≠ 0 ∧ a.x = 0 then |a.y|
  else Real.sqrt (a.x * a.x + a.y * a.y)

/-- `Vec2.abs_cap`: clamp each component's absolute value to `v`, keeping sign. -/
noncomputable def Vec2.absCap (a : Vec2) (v : ℝ) : Vec2 :=
  ⟨signR a.x * min |a.x| v, signR a.y * min |a.y| v⟩

/-- Python's built-in `round`: round half to even. -/
noncomputable def pyRound (x : ℝ) : ℤ :=
  if Int.fract x = 1 / 2 then (if Even ⌊x⌋ then ⌊x⌋ else ⌊x⌋ + 1) else round x

/-- `Vec2.round`. -/
noncomputable def Vec2.roundV (a : Vec2) : Vec2 := ⟨(pyRound a.x : ℝ), (pyRound a.y : ℝ)⟩

/-- One observed or injected scroll notification (`ScrollEvent` in main.py). -/
structure ScrollEvent where
  time : ℝ
  pos : Vec2
  delta : Vec2
  generated : Bool

/-- `_VelocityEstimateMaxDeltaTime`. -/
def VelocityEstimateMaxDeltaTime : ℝ := 1

/-- `_DiscreteScrollEvents`: the four axis-aligned unit steps. -/
def DiscreteScrollEvents : List Vec2 := [⟨0, 1⟩, ⟨0, -1⟩, ⟨1, 0⟩, ⟨-1, 0⟩]

/-- Engine configuration fixed at startup. -/
structure Config where
  accel_factor : ℝ
  accel_factor_exp : ℝ
  discrete : Bool
  maxScrollDelta : ℤ

/-- The mutable engine state: the event list and the outstanding
generated scrolls. -/
structure EngineState where
  scroll_events : List ScrollEvent
  outstanding : Vec2

/-- Python's `a or b` on `Vec2` truthiness. -/
noncomputable def orV (a b : Vec2) : Vec2 := if a = Vec2.zero then b else a

/-- The body of the estimator loop in `_estimate_current_scroll_velocity`:
one event updates the `(user, generated)` accumulator pair. -/
noncomputable def estimateStep (cur : ℝ) (s : Vec2 × Vec2) (ev : ScrollEvent) :
    Vec2 × Vec2 :=
  let d' := ev.delta
  let w := 1 - (cur - ev.time) / VelocityEstimateMaxDeltaTime
  if d'.signV ≠ (orV s.1 (orV s.2 d')).signV then (Vec2.zero, Vec2.zero)
  else if ev.generated then (s.1, s.2 + d'.smul w) else (s.1 + d'.smul w, s.2)

/-- The pruning in `_estimate_current_scroll_velocity`: keep the longest
suffix of events within the window (the reversed walk breaks at the first
event older than the window). -/
noncomputable def keepRecent (cur : ℝ) (evs : List ScrollEvent) : List ScrollEvent :=
  (evs.reverse.takeWhile fun ev =>
    decide (cur - ev.time ≤ VelocityEstimateMaxDeltaTime)).reverse

/-- `_estimate_current_scroll_velocity`: returns the pruned event list
(the function mutates the log) and the two velocity estimates. -/
noncomputable def estimate_current_scroll_velocity
    (evs : List ScrollEvent) (cur : ℝ) : List ScrollEvent × Vec2 × Vec2 :=
  let kept := keepRecent cur evs
  let p := kept.foldl (estimateStep cur) (Vec2.zero, Vec2.zero)
  let f : ℝ :=
    if 1 / VelocityEstimateMaxDeltaTime > 1 then 1
    else 1 / VelocityEstimateMaxDeltaTime
  (kept, p.1.smul f, p.2.smul f)

/-- `_acceleration_scheme_get_scroll_multiplier`. -/
noncomputable def acceleration_scheme_get_scroll_multiplier
    (factor expo absVel : ℝ) : ℝ :=
  if absVel ≤ 1 then 1 else absVel ^ expo * factor

/-- The classification in `_on_scroll`: generated iff the delta's sign
vector equals that of the outstanding generated scrolls, overridden to
`false` on discrete backends when the delta is not a unit step. -/
noncomputable def classifyGenerated (disc : Bool) (out δ : Vec2) : Bool :=
  if disc = true ∧ δ ∉ DiscreteScrollEvents then false
  else if δ.signV = out.signV then true else false

/-- The outstanding-generated update in `_on_scroll`: when the event is
classified generated, subtract its delta; if the sign vector of the
result differs from that of the old value, reset the whole vector. -/
noncomputable def outstandingAfterClassify (disc : Bool) (out δ : Vec2) : Vec2 :=
  if classifyGenerated disc out δ then
    (if (out - δ).signV ≠ out.signV then Vec2.zero else out - δ)
  else out

/-- `_scroll`: cap, round, drop zero deltas, suppress direction-opposed
injections, otherwise record the delta and emit it (the `some` payload is
the delta passed to `mouse.scroll`). -/
noncomputable def scrollFn (maxDelta : ℤ) (out δ : Vec2) : Vec2 × Option Vec2 :=
  let d1 := δ.absCap (maxDelta : ℝ)
  let d2 := d1.roundV
  if d2 = Vec2.zero then (out, none)
  else if out ≠ Vec2.zero ∧ out.signV ≠ d2.signV then (out, none)
  else (out + d2, some d2)

/-- `_on_scroll`: classify, update the guard, append the event, prune and
estimate, compute the multiplier, and possibly inject.  Returns the new
state and the delta passed to `mouse.scroll`, if any. -/
noncomputable def on_scroll (cfg : Config) (st : EngineState) (t : ℝ)
    (pos δ : Vec2) : EngineState × Option Vec2 :=
  let generated := classifyGenerated cfg.discrete st.outstanding δ
  let out1 := outstandingAfterClassify cfg.discrete st.outstanding δ
  let ev : ScrollEvent := ⟨t, pos, δ, generated⟩
  let r := estimate_current_scroll_velocity (st.scroll_events ++ [ev]) t
  let kept := r.1
  let vel := r.2.1
  let genVel := r.2.2
  let curVel := vel + genVel
  let absVel := vel.l2
  let absVelCur := curVel.l2
  let m := acceleration_scheme_get_scroll_multiplier
    cfg.accel_factor cfg.accel_factor_exp absVel
  if m > 1 ∧ absVel * m > absVelCur then
    let scr := vel.smul m - curVel
    let inj := if cfg.discrete = true ∧ scr.roundV ≠ Vec2.zero
      then scr.roundV.signV else scr
    let res := scrollFn cfg.maxScrollDelta out1 inj
    (⟨kept, res.1⟩, res.2)
  else (⟨kept, out1⟩, none)

/-- The guard update of one accepted `_scroll` call on an (already
capped, rounded, non-zero) delta: the suppression check, then the
addition to the outstanding vector.  `none` means the call was
suppressed. -/
noncomputable def injStep (out δ : Vec2) : Option Vec2 :=
  if out ≠ Vec2.zero ∧ out.signV ≠ δ.signV then none else some (out + δ)

/-- The guard part of a sequence of accepted `_scroll` calls, starting
from the zero vector.  `none` means some call in the sequence was
suppressed. -/
noncomputable def record_injections (L : List Vec2) : Option Vec2 :=
  L.foldl (fun o δ => o.bind fun out => injStep out δ) (some Vec2.zero)

/-- One classification step of `_on_scroll`, required to classify its
event as generated (`none` means the event was classified as user
input). -/
noncomputable def classStep (disc : Bool) (out δ : Vec2) : Option Vec2 :=
  if classifyGenerated disc out δ then some (outstandingAfterClassify disc out δ)
  else none

/-- A sequence of classification steps of `_on_scroll`, each of which is
required to classify its event as generated. -/
noncomputable def classify_consume (disc : Bool) (start : Vec2) (L : List Vec2) :
    Option Vec2 :=
  L.foldl (fun o δ => o.bind fun out => classStep disc out δ) (some start)

/-- Sum of a list of vectors. -/
noncomputable def sumL (L : List Vec2) : Vec2 := L.foldr (· + ·) Vec2.zero

/-- A continuous-backend configuration: factor 2, no exponent. -/
noncomputable def cfgA : Config := ⟨2, 0, false, 100⟩

/-- The engine's initial state: no events, no outstanding scrolls. -/
noncomputable def stEmpty : EngineState := ⟨[], Vec2.zero⟩

/-- The sign-reset example of the spec: user events `+3, +2, -1` on the
y axis, all at the current time. -/
noncomputable def threeEvents : List ScrollEvent :=
  [⟨0, Vec2.zero, ⟨0, 3⟩, false⟩, ⟨0, Vec2.zero, ⟨0, 2⟩, false⟩,
   ⟨0, Vec2.zero, ⟨0, -1⟩, false⟩]

/-- A unit scroll event at time 0. -/
noncomputable def burstEvent : ScrollEvent := ⟨0, Vec2.zero, ⟨0, 1⟩, false⟩

/-- The user event of the injection scenario: delta (0, 2) at time 0. -/
noncomputable def evA : ScrollEvent := ⟨0, Vec2.zero, ⟨0, 2⟩, false⟩

/-- The event log after `n` handler calls that all carry timestamp 0:
each call appends its event and then prunes by age, exactly as
`_on_scroll` does. -/
noncomputable def appendBurst : ℕ → List ScrollEvent
  | 0 => []
  | n + 1 => keepRecent 0 (appendBurst n ++ [burstEvent])

section SignLemmas

@[simp]
theorem signR_zero : signR 0 = 0 := by simp [signR]

theorem signR_of_pos {a : ℝ} (h : 0 < a) : signR a = 1 := by
  simp [signR, h, not_lt.2 h.le]

theorem signR_of_neg {a : ℝ} (h : a < 0) : signR a = -1 := by
  simp [signR, h]

theorem signR_eq_zero_iff {a : ℝ} : signR a = 0 ↔ a = 0 := by
  rcases lt_trichotomy a 0 with h | h | h
  · simp [signR_of_neg h, h.ne]
  · simp [h]
  · simp [signR_of_pos h, h.ne']

theorem signR_add {a b : ℝ} (h : signR a = signR b) : signR (a + b) = signR a := by
  rcases lt_trichotomy a 0 with ha | ha | ha
  · rw [signR_of_neg ha] at h ⊢
    rcases lt_trichotomy b 0 with hb | hb | hb
    · exact signR_of_neg (by linarith)
    · rw [hb, signR_zero] at h; norm_num at h
    · rw [signR_of_pos hb] at h; norm_num at h
  · rcases lt_trichotomy b 0 with hb | hb | hb
    · rw [ha, signR_zero, signR_of_neg hb] at h; norm_num at h
    · simp [ha, hb]
    · rw [ha, signR_zero, signR_of_pos hb] at h; norm_num at h
  · rw [signR_of_pos ha] at h ⊢
    rcases lt_trichotomy b 0 with hb | hb | hb
    · rw [signR_of_neg hb] at h; norm_num at h
    · rw [hb, signR_zero] at h; norm_num at h
    · exact signR_of_pos (by linarith)

end SignLemmas

section Vec2Lemmas

@[simp]
theorem Vec2.add_x (a b : Vec2) : (a + b).x = a.x + b.x := rfl

@[simp]
theorem Vec2.add_y (a b : Vec2) : (a + b).y = a.y + b.y := rfl

@[simp]
theorem Vec2.sub_x (a b : Vec2) : (a - b).x = a.x - b.x := rfl

@[simp]
theorem Vec2.sub_y (a b : Vec2) : (a - b).y = a.y - b.y := rfl

@[simp]
theorem Vec2.zero_x : (Vec2.zero).x = 0 := rfl

@[simp]
theorem Vec2.zero_y : (Vec2.zero).y = 0 := rfl

@[simp]
theorem Vec2.smul_x (a : Vec2) (c : ℝ) : (a.smul c).x = a.x * c := rfl

@[simp]
theorem Vec2.smul_y (a : Vec2) (c : ℝ) : (a.smul c).y = a.y * c := rfl

@[simp]
theorem Vec2.signV_x (a : Vec2) : (a.signV).x = signR a.x := rfl

@[simp]
theorem Vec2.signV_y (a : Vec2) : (a.signV).y = signR a.y := rfl

@[simp]
theorem Vec2.roundV_x (a : Vec2) : (a.roundV).x = (pyRound a.x : ℝ) := rfl

@[simp]
theorem Vec2.roundV_y (a : Vec2) : (a.roundV).y = (pyRound a.y : ℝ) := rfl

@[simp]
theorem Vec2.absCap_x (a : Vec2) (v : ℝ) :
    (a.absCap v).x = signR a.x * min |a.x| v := rfl

@[simp]
theorem Vec2.absCap_y (a : Vec2) (v : ℝ) :
    (a.absCap v).y = signR a.y * min |a.y| v := rfl

theorem Vec2.eq_iff {a b : Vec2} : a = b ↔ a.x = b.x ∧ a.y = b.y := by
  cases a; cases b; simp

@[simp]
theorem Vec2.zero_add (a : Vec2) : Vec2.zero + a = a := by
  rw [Vec2.eq_iff]; simp

@[simp]
theorem Vec2.add_zero (a : Vec2) : a + Vec2.zero = a := by
  rw [Vec2.eq_iff]; simp

@[simp]
theorem Vec2.sub_zero (a : Vec2) : a - Vec2.zero = a := by
  rw [Vec2.eq_iff]; simp

theorem Vec2.add_sub_cancel (a b : Vec2) : (a + b) - a = b := by
  rw [Vec2.eq_iff]; constructor <;> simp

@[simp]
theorem Vec2.signV_zero : (Vec2.zero).signV = Vec2.zero := by
  rw [Vec2.eq_iff]; simp

theorem Vec2.signV_eq_zero_iff {a : Vec2} : a.signV = Vec2.zero ↔ a = Vec2.zero := by
  rw [Vec2.eq_iff, Vec2.eq_iff]
  simp [signR_eq_zero_iff]

theorem Vec2.signV_add {a b : Vec2} (h : a.signV = b.signV) :
    (a + b).signV = a.signV := by
  rw [Vec2.eq_iff] at h ⊢
  simp only [Vec2.signV_x, Vec2.signV_y, Vec2.add_x, Vec2.add_y] at h ⊢
  exact ⟨signR_add h.1, signR_add h.2⟩

@[simp]
theorem Vec2.smul_one (a : Vec2) : a.smul 1 = a := by
  rw [Vec2.eq_iff]; simp

@[simp]
theorem Vec2.zero_smul (c : ℝ) : (Vec2.zero).smul c = Vec2.zero := by
  rw [Vec2.eq_iff]; simp

end Vec2Lemmas

section RoundLemmas

theorem pyRound_intCast (n : ℤ) : pyRound (n : ℝ) = n := by
  unfold pyRound
  rw [Int.fract_intCast]
  norm_num

theorem pyRound_zero : pyRound (0 : ℝ) = 0 := by
  have h : ((0 : ℤ) : ℝ) = (0 : ℝ) := by norm_num
  rw [← h, pyRound_intCast]

theorem pyRound_two : pyRound (2 : ℝ) = 2 := by
  have h : ((2 : ℤ) : ℝ) = (2 : ℝ) := by norm_num
  rw [← h, pyRound_intCast]

theorem pyRound_le_of_le {x : ℝ} {n : ℤ} (h : x ≤ (n : ℝ)) : pyRound x ≤ n := by
  unfold pyRound
  split
  · rename_i h5
    have hfl : (⌊x⌋ : ℝ) + Int.fract x = x := Int.floor_add_fract x
    have hlt : (⌊x⌋ : ℝ) < (n : ℝ) := by rw [h5] at hfl; linarith
    have hz : ⌊x⌋ < n := by exact_mod_cast hlt
    split <;> omega
  · rw [round_eq]
    have h1 : (⌊x + 1 / 2⌋ : ℝ) ≤ x + 1 / 2 := Int.floor_le _
    have h2 : (⌊x + 1 / 2⌋ : ℝ) < (n : ℝ) + 1 := by linarith
    have : ⌊x + 1 / 2⌋ < n + 1 := by exact_mod_cast h2
    omega

theorem le_pyRound_of_le {m : ℤ} {x : ℝ} (h : (m : ℝ) ≤ x) : m ≤ pyRound x := by
  unfold pyRound
  split
  · have hz : m ≤ ⌊x⌋ := Int.le_floor.mpr h
    split <;> omega
  · rw [round_eq]
    exact Int.le_floor.mpr (by linarith)

theorem abs_pyRound_le {x : ℝ} {n : ℤ} (h : |x| ≤ (n : ℝ)) :
    |(pyRound x : ℝ)| ≤ (n : ℝ) := by
  rw [abs_le] at h ⊢
  have h1 : pyRound x ≤ n := pyRound_le_of_le h.2
  have h2 : -n ≤ pyRound x := by
    have := le_pyRound_of_le (x := x) (m := -n) (by push_cast; linarith [h.1])
    omega
  constructor
  · exact_mod_cast h2
  · exact_mod_cast h1

theorem pyRound_eq_zero_of_abs_le {x : ℝ} (h : |x| ≤ 1 / 2) : pyRound x = 0 := by
  rw [abs_le] at h
  unfold pyRound
  split
  · rename_i h5
    have hfl : (⌊x⌋ : ℝ) + Int.fract x = x := Int.floor_add_fract x
    have hlo : (-1 : ℝ) ≤ (⌊x⌋ : ℝ) := by rw [h5] at hfl; linarith [h.1]
    have hhi : (⌊x⌋ : ℝ) ≤ 0 := by rw [h5] at hfl; linarith [h.2]
    have hlo' : (-1 : ℤ) ≤ ⌊x⌋ := by exact_mod_cast hlo
    have hhi' : ⌊x⌋ ≤ (0 : ℤ) := by exact_mod_cast hhi
    have : ⌊x⌋ = 0 ∨ ⌊x⌋ = -1 := by omega
    rcases this with h0 | h0 <;> simp [h0, Int.even_iff]
  · rename_i h5
    have hx : x < 1 / 2 := by
      rcases lt_or_eq_of_le h.2 with h2 | h2
      · exact h2
      · exfalso; apply h5; rw [h2]
        exact Int.fract_eq_self.mpr (by norm_num)
    rw [round_eq, Int.floor_eq_iff]
    push_cast
    constructor <;> linarith [h.1]

theorem abs_le_half_of_pyRound_eq_zero {x : ℝ} (h : pyRound x = 0) : |x| ≤ 1 / 2 := by
  unfold pyRound at h
  rw [abs_le]
  split at h
  · rename_i h5
    have hfl : (⌊x⌋ : ℝ) + Int.fract x = x := Int.floor_add_fract x
    split at h
    · rw [h] at hfl; rw [h5] at hfl; push_cast at hfl
      constructor <;> linarith
    · have h0 : ⌊x⌋ = -1 := by omega
      rw [h0] at hfl; rw [h5] at hfl; push_cast at hfl
      constructor <;> linarith
  · rw [round_eq] at h
    have h2 := Int.floor_eq_iff.mp h
    push_cast at h2
    constructor <;> linarith [h2.1, h2.2]

theorem abs_signR_le_one (a : ℝ) : |signR a| ≤ 1 := by
  rcases lt_trichotomy a 0 with h | h | h
  · rw [signR_of_neg h]; norm_num
  · rw [h, signR_zero]; norm_num
  · rw [signR_of_pos h]; norm_num

theorem abs_cap_le_right {a v : ℝ} (hv : 0 ≤ v) : |signR a * min |a| v| ≤ v := by
  have h0 : 0 ≤ min |a| v := le_min (abs_nonneg a) hv
  rw [abs_mul, abs_of_nonneg h0]
  calc |signR a| * min |a| v ≤ 1 * min |a| v :=
        mul_le_mul_of_nonneg_right (abs_signR_le_one a) h0
    _ = min |a| v := one_mul _
    _ ≤ v := min_le_right _ _

theorem abs_cap_le_left {a v : ℝ} (hv : 0 ≤ v) : |signR a * min |a| v| ≤ |a| := by
  have h0 : 0 ≤ min |a| v := le_min (abs_nonneg a) hv
  rw [abs_mul, abs_of_nonneg h0]
  calc |signR a| * min |a| v ≤ 1 * min |a| v :=
        mul_le_mul_of_nonneg_right (abs_signR_le_one a) h0
    _ = min |a| v := one_mul _
    _ ≤ |a| := min_le_left _ _

end RoundLemmas

section Policy

/-- C3 counterexample: with multiplier 0 and exponent 0 (both allowed by
the claim's `multiplier >= 0`, `exponent >= 0`), the multiplier function
is not monotone: it returns 1 at velocity 1 but 0 at velocity 2. -/
theorem multiplier_not_monotone_at_factor_zero :
    (0 : ℝ) ≤ 0 ∧ (0 : ℝ) ≤ 1 ∧ (1 : ℝ) ≤ 2 ∧
    ¬ acceleration_scheme_get_scroll_multiplier 0 0 1 ≤
        acceleration_scheme_get_scroll_multiplier 0 0 2 := by
  refine ⟨le_refl 0, zero_le_one, by norm_num, ?_⟩
  unfold acceleration_scheme_get_scroll_multiplier
  rw [if_pos (le_refl (1 : ℝ)), if_neg (by norm_num)]
  norm_num

/-- C3 (amended): the acceleration multiplier function is monotone
non-decreasing in the velocity argument for every configuration with
multiplier ≥ 1 and exponent ≥ 0 (for a configured multiplier below 1 the
neutral floor at velocities ≤ 1 breaks monotonicity). -/
theorem multiplier_monotone (factor expo v1 v2 : ℝ) (hf : 1 ≤ factor)
    (he : 0 ≤ expo) (h1 : 0 ≤ v1) (h12 : v1 ≤ v2) :
    acceleration_scheme_get_scroll_multiplier factor expo v1 ≤
      acceleration_scheme_get_scroll_multiplier factor expo v2 := by
  unfold acceleration_scheme_get_scroll_multiplier
  by_cases hv2 : v2 ≤ 1
  · rw [if_pos (le_trans h12 hv2), if_pos hv2]
  · rw [if_neg hv2]
    push_neg at hv2
    by_cases hv1 : v1 ≤ 1
    · rw [if_pos hv1]
      have hge : (1 : ℝ) ≤ v2 ^ expo := by
        calc (1 : ℝ) = v2 ^ (0 : ℝ) := (Real.rpow_zero v2).symm
          _ ≤ v2 ^ expo := Real.rpow_le_rpow_of_exponent_le hv2.le he
      nlinarith
    · rw [if_neg hv1]
      have hpow : v1 ^ expo ≤ v2 ^ expo := Real.rpow_le_rpow h1 h12 he
      exact mul_le_mul_of_nonneg_right hpow (le_trans zero_le_one hf)

/-- C3 witness: the amended monotonicity at a concrete configuration. -/
theorem multiplier_monotone_witness :
    (1 : ℝ) ≤ 2 ∧ (0 : ℝ) ≤ 1 ∧ (0 : ℝ) ≤ 1 ∧ (1 : ℝ) ≤ 3 ∧
    acceleration_scheme_get_scroll_multiplier 2 1 1 ≤
      acceleration_scheme_get_scroll_multiplier 2 1 3 :=
  ⟨by norm_num, by norm_num, by norm_num, by norm_num,
    multiplier_monotone 2 1 1 3 (by norm_num) (by norm_num) (by norm_num)
      (by norm_num)⟩

end Policy

section Guard

/-- C5 counterexample: from outstanding (2, 3), consuming a generated
delta (2, 1) resets the whole vector to (0, 0); the claim's predicted
per-axis result (0, 2) is not what the code computes. -/
theorem classify_consume_not_per_axis :
    classifyGenerated false ⟨2, 3⟩ ⟨2, 1⟩ = true ∧
    outstandingAfterClassify false ⟨2, 3⟩ ⟨2, 1⟩ = Vec2.zero ∧
    outstandingAfterClassify false ⟨2, 3⟩ ⟨2, 1⟩ ≠ (⟨0, 2⟩ : Vec2) := by
  have hg : classifyGenerated false ⟨2, 3⟩ ⟨2, 1⟩ = true := by
    norm_num [classifyGenerated, Vec2.signV, signR]
  have hz : outstandingAfterClassify false ⟨2, 3⟩ ⟨2, 1⟩ = Vec2.zero := by
    norm_num [outstandingAfterClassify, hg, Vec2.signV, signR, Vec2.eq_iff,
      Vec2.sub_x, Vec2.sub_y]
  refine ⟨hg, hz, ?_⟩
  rw [hz, Ne, Vec2.eq_iff]
  norm_num [Vec2.zero]

/-- C5 (amended): when an event is classified generated, the subtraction
from the outstanding vector is guarded as a whole: if the sign of the
result differs from the sign of the old value on ANY axis (including an
axis that is consumed exactly to zero), the ENTIRE vector is reset to
zero; only when both axes keep their signs is the subtracted value
retained. -/
theorem classify_consume_whole_vector_reset (disc : Bool) (out δ : Vec2)
    (hg : classifyGenerated disc out δ = true) :
    ((signR (out.x - δ.x) ≠ signR out.x ∨ signR (out.y - δ.y) ≠ signR out.y) →
        outstandingAfterClassify disc out δ = Vec2.zero) ∧
    ((signR (out.x - δ.x) = signR out.x ∧ signR (out.y - δ.y) = signR out.y) →
        outstandingAfterClassify disc out δ = out - δ) := by
  have hb : outstandingAfterClassify disc out δ =
      if (out - δ).signV ≠ out.signV then Vec2.zero else out - δ := by
    unfold outstandingAfterClassify
    rw [hg]
    simp
  rw [hb]
  constructor
  · intro h
    rw [if_pos]
    rw [Ne, Vec2.eq_iff]
    simp only [Vec2.signV_x, Vec2.signV_y, Vec2.sub_x, Vec2.sub_y]
    tauto
  · intro h
    rw [if_neg]
    rw [Ne, Vec2.eq_iff, not_not]
    simp only [Vec2.signV_x, Vec2.signV_y, Vec2.sub_x, Vec2.sub_y]
    exact h

/-- C5 witness: the amended rule applied at outstanding (2, 3) and
generated delta (2, 1): the x axis is consumed exactly to zero, so the
whole vector resets. -/
theorem classify_consume_whole_vector_reset_witness :
    classifyGenerated false ⟨2, 3⟩ ⟨2, 1⟩ = true ∧
    outstandingAfterClassify false ⟨2, 3⟩ ⟨2, 1⟩ = Vec2.zero := by
  have hg : classifyGenerated false ⟨2, 3⟩ ⟨2, 1⟩ = true := by
    norm_num [classifyGenerated, Vec2.signV, signR]
  refine ⟨hg, ?_⟩
  exact (classify_consume_whole_vector_reset false ⟨2, 3⟩ ⟨2, 1⟩ hg).1
    (Or.inl (by norm_num [signR]))

/-- C9: every single update of the outstanding generated vector — by
classification or by the injection path — either preserves its sign
vector exactly, or starts from the zero vector, or resets it to the zero
vector; in particular no component ever flips directly between a
positive and a negative value. -/
theorem outstanding_update_sign_stable (disc : Bool) (c : ℤ) (out δ : Vec2) :
    ((outstandingAfterClassify disc out δ).signV = out.signV ∨ out = Vec2.zero ∨
      outstandingAfterClassify disc out δ = Vec2.zero) ∧
    (((scrollFn c out δ).1).signV = out.signV ∨ out = Vec2.zero ∨
      (scrollFn c out δ).1 = Vec2.zero) ∧
    (out ≠ Vec2.zero → out.signV ≠ ((δ.absCap (c : ℝ)).roundV).signV →
      scrollFn c out δ = (out, none)) := by
  refine ⟨?_, ?_, ?_⟩
  · unfold outstandingAfterClassify
    split
    · split
      · right; right; rfl
      · rename_i hne
        rw [not_not] at hne
        left; exact hne
    · left; rfl
  · simp only [scrollFn]
    split
    · left; rfl
    · split
      · left; rfl
      · rename_i hcond
        push_neg at hcond
        by_cases hout : out = Vec2.zero
        · right; left; exact hout
        · left
          exact Vec2.signV_add (hcond hout)
  · intro hout hsign
    simp only [scrollFn]
    split
    · rfl
    · rw [if_pos ⟨hout, hsign⟩]

/-- C9 witness: the sign-stability statement applied at a concrete
opposed injection — outstanding (0, 1), injected delta (0, -2) — which
is suppressed without mutating the state. -/
theorem outstanding_update_sign_stable_witness :
    ((⟨0, 1⟩ : Vec2) ≠ Vec2.zero) ∧
    ((⟨0, 1⟩ : Vec2)).signV ≠
      (((⟨0, -2⟩ : Vec2).absCap ((100 : ℤ) : ℝ)).roundV).signV ∧
    scrollFn 100 ⟨0, 1⟩ ⟨0, -2⟩ = (⟨0, 1⟩, none) := by
  have h1 : (⟨0, 1⟩ : Vec2) ≠ Vec2.zero := by
    rw [Ne, Vec2.eq_iff]
    norm_num [Vec2.zero]
  have hcap : ((⟨0, -2⟩ : Vec2).absCap ((100 : ℤ) : ℝ)).roundV = ⟨0, -2⟩ := by
    have hpr : pyRound (-2 : ℝ) = -2 := by
      have h : ((-2 : ℤ) : ℝ) = (-2 : ℝ) := by norm_num
      rw [← h, pyRound_intCast]
    rw [Vec2.eq_iff, Vec2.roundV_x, Vec2.roundV_y, Vec2.absCap_x, Vec2.absCap_y]
    norm_num [signR_of_neg, pyRound_zero, hpr]
  have h2 : ((⟨0, 1⟩ : Vec2)).signV ≠
      (((⟨0, -2⟩ : Vec2).absCap ((100 : ℤ) : ℝ)).roundV).signV := by
    rw [hcap, Ne, Vec2.eq_iff]
    norm_num [Vec2.signV, signR]
  exact ⟨h1, h2, (outstanding_update_sign_stable false 100 ⟨0, 1⟩ ⟨0, -2⟩).2.2 h1 h2⟩

end Guard

section NoDrift

theorem sumL_nil : sumL [] = Vec2.zero := rfl

theorem sumL_cons (a : Vec2) (l : List Vec2) : sumL (a :: l) = a + sumL l := rfl

theorem Vec2.add_assoc (a b c : Vec2) : a + b + c = a + (b + c) := by
  rw [Vec2.eq_iff]; constructor <;> simp <;> ring

theorem sumL_components (L : List Vec2) :
    sumL L = ⟨(L.map Vec2.x).sum, (L.map Vec2.y).sum⟩ := by
  induction L with
  | nil => rfl
  | cons a l ih => rw [sumL_cons, ih, Vec2.eq_iff]; simp

theorem sumL_perm {L L' : List Vec2} (h : L.Perm L') : sumL L = sumL L' := by
  rw [sumL_components, sumL_components, Vec2.eq_iff]
  exact ⟨(h.map Vec2.x).sum_eq, (h.map Vec2.y).sum_eq⟩

theorem foldl_bind_none {α β : Type} (g : α → β → Option α) (L : List β) :
    L.foldl (fun o x => o.bind fun y => g y x) none = none := by
  induction L with
  | nil => rfl
  | cons b t ih => simpa using ih

theorem foldl_bind_cons {α β : Type} (g : α → β → Option α) (a : α) (b : β)
    (t : List β) (res : α)
    (h : (b :: t).foldl (fun o x => o.bind fun y => g y x) (some a) = some res) :
    ∃ a1, g a b = some a1 ∧
      t.foldl (fun o x => o.bind fun y => g y x) (some a1) = some res := by
  rw [List.foldl_cons] at h
  simp only [Option.some_bind] at h
  cases hg : g a b with
  | none =>
      rw [hg, foldl_bind_none] at h
      exact absurd h (by simp)
  | some a1 =>
      rw [hg] at h
      exact ⟨a1, rfl, h⟩

theorem sumL_sign (s : Vec2) :
    ∀ t : List Vec2, t ≠ [] → (∀ δ ∈ t, δ ≠ Vec2.zero ∧ δ.signV = s) →
      (sumL t).signV = s ∧ sumL t ≠ Vec2.zero := by
  intro t
  induction t with
  | nil => intro h; exact absurd rfl h
  | cons δ t ih =>
      intro _ hall
      have hδ := hall δ (List.mem_cons_self δ t)
      by_cases ht : t = []
      · subst ht
        rw [sumL_cons, sumL_nil, Vec2.add_zero]
        exact ⟨hδ.2, hδ.1⟩
      · obtain ⟨hsig, _⟩ := ih ht fun d hd => hall d (List.mem_cons_of_mem δ hd)
        have hadd : (δ + sumL t).signV = δ.signV :=
          Vec2.signV_add (by rw [hδ.2, hsig])
        rw [sumL_cons]
        constructor
        · rw [hadd, hδ.2]
        · intro hz
          have h1 : δ.signV = Vec2.zero := by
            rw [← hadd, hz, Vec2.signV_zero]
          exact hδ.1 (Vec2.signV_eq_zero_iff.mp h1)

theorem record_injections_from (t : List Vec2) :
    ∀ out res : Vec2, out ≠ Vec2.zero → (∀ δ ∈ t, δ ≠ Vec2.zero) →
    t.foldl (fun o δ => o.bind fun y => injStep y δ) (some out) = some res →
    (∀ δ ∈ t, δ.signV = out.signV) ∧ res = out + sumL t ∧
      res.signV = out.signV ∧ res ≠ Vec2.zero := by
  induction t with
  | nil =>
      intro out res hout _ h
      simp only [List.foldl_nil, Option.some.injEq] at h
      subst h
      exact ⟨by simp, by rw [sumL_nil, Vec2.add_zero], rfl, hout⟩
  | cons δ t ih =>
      intro out res hout hnz h
      obtain ⟨a1, hstep, hrest⟩ := foldl_bind_cons injStep out δ t res h
      have hsign : out.signV = δ.signV := by
        by_contra hne
        rw [injStep, if_pos ⟨hout, hne⟩] at hstep
        exact absurd hstep (by simp)
      have ha1 : a1 = out + δ := by
        rw [injStep, if_neg (by simp [hsign])] at hstep
        exact (Option.some.injEq _ _ ▸ hstep).symm
      have hsa : a1.signV = out.signV := by
        rw [ha1]; exact Vec2.signV_add hsign
      have ha1nz : a1 ≠ Vec2.zero := by
        intro hz
        have hzz : out.signV = Vec2.zero := by
          rw [← hsa, hz, Vec2.signV_zero]
        exact hout (Vec2.signV_eq_zero_iff.mp hzz)
      obtain ⟨hall, hres, hressign, hresnz⟩ :=
        ih a1 res ha1nz (fun d hd => hnz d (List.mem_cons_of_mem δ hd)) hrest
      refine ⟨?_, ?_, ?_, hresnz⟩
      · intro d hd
        rcases List.mem_cons.mp hd with h1 | h1
        · rw [h1, hsign]
        · rw [hall d h1, hsa]
      · rw [hres, ha1, sumL_cons, Vec2.add_assoc]
      · rw [hressign, hsa]

theorem classify_consume_sum (disc : Bool) (s : Vec2) :
    ∀ (M : List Vec2) (fin : Vec2),
      (∀ δ ∈ M, δ ≠ Vec2.zero ∧ δ.signV = s) →
      classify_consume disc (sumL M) M = some fin → fin = Vec2.zero := by
  intro M
  induction M with
  | nil =>
      intro fin _ h
      simp only [classify_consume, List.foldl_nil, Option.some.injEq] at h
      rw [← h, sumL_nil]
  | cons δ t ih =>
      intro fin hall h
      unfold classify_consume at h
      obtain ⟨a1, hstep, hrest⟩ := foldl_bind_cons (classStep disc) _ δ t fin h
      have hδ := hall δ (List.mem_cons_self δ t)
      have hs0 : s ≠ Vec2.zero := by
        rw [← hδ.2]
        exact fun hz => hδ.1 (Vec2.signV_eq_zero_iff.mp hz)
      cases hcg : classifyGenerated disc (sumL (δ :: t)) δ with
      | false =>
          rw [classStep, hcg] at hstep
          exact absurd hstep (by simp)
      | true =>
          rw [classStep, hcg] at hstep
          simp only [if_true] at hstep
          have hnw : sumL (δ :: t) - δ = sumL t := by
            rw [sumL_cons]; exact Vec2.add_sub_cancel δ (sumL t)
          by_cases ht : t = []
          · subst ht
            have hout : sumL [δ] = δ := by
              rw [sumL_cons, sumL_nil, Vec2.add_zero]
            have ha1 : a1 = Vec2.zero := by
              rw [outstandingAfterClassify, hcg] at hstep
              simp only [if_true] at hstep
              rw [if_pos] at hstep
              · exact (Option.some.injEq _ _ ▸ hstep).symm
              · rw [hnw, sumL_nil, Vec2.signV_zero, hout, hδ.2]
                exact fun hz => hs0 hz.symm
            rw [ha1] at hrest
            simp only [List.foldl_nil, Option.some.injEq] at hrest
            exact hrest.symm
          · have hsum := sumL_sign s t ht
              fun d hd => hall d (List.mem_cons_of_mem δ hd)
            have houts := sumL_sign s (δ :: t) (by simp) hall
            have ha1 : a1 = sumL t := by
              rw [outstandingAfterClassify, hcg] at hstep
              simp only [if_true] at hstep
              rw [if_neg] at hstep
              · rw [← hnw]
                exact (Option.some.injEq _ _ ▸ hstep).symm
              · rw [hnw, not_not, hsum.1, houts.1]
            rw [ha1] at hrest
            exact ih fin (fun d hd => hall d (List.mem_cons_of_mem δ hd)) hrest

/-- C7: starting from a zero outstanding vector, after any finite
sequence of accepted (non-suppressed) injection recordings of non-zero
deltas, followed by classification steps that are all classified
generated and consume exactly the injected deltas (in any order), the
outstanding generated vector is again exactly the zero vector. -/
theorem no_drift (disc : Bool) (L L' : List Vec2) (out0 fin : Vec2)
    (hnz : ∀ δ ∈ L, δ ≠ Vec2.zero)
    (hinj : record_injections L = some out0)
    (hperm : L.Perm L')
    (hcl : classify_consume disc out0 L' = some fin) :
    fin = Vec2.zero := by
  cases L with
  | nil =>
      have hL' : L' = [] := (hperm.symm).eq_nil
      subst hL'
      simp only [record_injections, List.foldl_nil, Option.some.injEq] at hinj
      rw [← hinj] at hcl
      simp only [classify_consume, List.foldl_nil, Option.some.injEq] at hcl
      exact hcl.symm
  | cons δ1 t =>
      unfold record_injections at hinj
      obtain ⟨a1, hstep, hrest⟩ := foldl_bind_cons injStep Vec2.zero δ1 t out0 hinj
      have hδ1 : δ1 ≠ Vec2.zero := hnz δ1 (List.mem_cons_self δ1 t)
      have ha1 : a1 = δ1 := by
        rw [injStep, if_neg (by simp)] at hstep
        have := (Option.some.injEq _ _ ▸ hstep).symm
        rw [this, Vec2.zero_add]
      rw [ha1] at hrest
      obtain ⟨hall, hsum, hsig, _⟩ := record_injections_from t δ1 out0 hδ1
        (fun d hd => hnz d (List.mem_cons_of_mem δ1 hd)) hrest
      have hmem : ∀ δ ∈ L', δ ≠ Vec2.zero ∧ δ.signV = δ1.signV := by
        intro d hd
        have hdL : d ∈ δ1 :: t := (hperm.mem_iff).mpr hd
        refine ⟨hnz d hdL, ?_⟩
        rcases List.mem_cons.mp hdL with h1 | h1
        · rw [h1]
        · exact hall d h1
      have hout0 : out0 = sumL L' := by
        rw [← sumL_perm hperm, sumL_cons, ← hsum]
      rw [hout0] at hcl
      exact classify_consume_sum disc δ1.signV L' fin hmem hcl

/-- C7 witness: two accepted injections (0,1) and (0,2), consumed in the
opposite order, bring the outstanding vector back to zero. -/
theorem no_drift_witness :
    (∀ δ ∈ [(⟨0, 1⟩ : Vec2), ⟨0, 2⟩], δ ≠ Vec2.zero) ∧
    record_injections [⟨0, 1⟩, ⟨0, 2⟩] = some ⟨0, 3⟩ ∧
    List.Perm [(⟨0, 1⟩ : Vec2), ⟨0, 2⟩] [⟨0, 2⟩, ⟨0, 1⟩] ∧
    classify_consume false ⟨0, 3⟩ [⟨0, 2⟩, ⟨0, 1⟩] = some Vec2.zero ∧
    Vec2.zero = Vec2.zero := by
  have h1 : ∀ δ ∈ [(⟨0, 1⟩ : Vec2), ⟨0, 2⟩], δ ≠ Vec2.zero := by
    intro δ hd
    rcases List.mem_pair.mp hd with h | h <;>
      · rw [h, Ne, Vec2.eq_iff]; norm_num [Vec2.zero]
  have h2 : record_injections [(⟨0, 1⟩ : Vec2), ⟨0, 2⟩] = some ⟨0, 3⟩ := by
    norm_num [record_injections, injStep, Vec2.eq_iff, Vec2.signV, signR,
      Vec2.zero]
  have h3 : List.Perm [(⟨0, 1⟩ : Vec2), ⟨0, 2⟩] [⟨0, 2⟩, ⟨0, 1⟩] :=
    List.Perm.swap _ _ _
  have h4 : classify_consume false ⟨0, 3⟩ [(⟨0, 2⟩ : Vec2), ⟨0, 1⟩] =
      some Vec2.zero := by
    norm_num [classify_consume, classStep, classifyGenerated,
      outstandingAfterClassify, DiscreteScrollEvents, Vec2.eq_iff, Vec2.signV,
      signR, Vec2.zero]
  exact ⟨h1, h2, h3, h4, no_drift false _ _ _ _ h1 h2 h3 h4⟩

end NoDrift

section Injection

theorem scrollFn_snd_some {c : ℤ} {out δ d : Vec2}
    (h : (scrollFn c out δ).2 = some d) :
    d = (δ.absCap (c : ℝ)).roundV := by
  simp only [scrollFn] at h
  split at h
  · exact absurd h (by simp)
  · split at h
    · exact absurd h (by simp)
    · exact (Option.some.injEq _ _ ▸ h).symm

theorem scrollFn_zero_two :
    scrollFn 100 Vec2.zero ⟨0, 2⟩ = (⟨0, 2⟩, some ⟨0, 2⟩) := by
  have hcap : (⟨0, 2⟩ : Vec2).absCap ((100 : ℤ) : ℝ) = ⟨0, 2⟩ := by
    rw [Vec2.eq_iff]
    constructor
    · simp
    · rw [Vec2.absCap_y]
      norm_num [signR_of_pos]
  have hround : (⟨0, 2⟩ : Vec2).roundV = ⟨0, 2⟩ := by
    rw [Vec2.eq_iff]
    constructor
    · rw [Vec2.roundV_x]
      norm_num [pyRound_zero]
    · rw [Vec2.roundV_y]
      norm_num [pyRound_two]
  simp only [scrollFn, hcap, hround]
  rw [if_neg, if_neg]
  · rw [Vec2.zero_add]
  · simp
  · rw [Vec2.eq_iff]
    norm_num [Vec2.zero]

/-- C10: every delta the injection path hands to the output scroll
primitive is integer-valued on both axes (the path rounds after
capping); and a non-zero target whose components all round to zero
produces no injection call at all, on any backend. -/
theorem injection_integer_valued :
    (∀ (c : ℤ) (out δ o' d : Vec2), scrollFn c out δ = (o', some d) →
        (∃ a : ℤ, d.x = (a : ℝ)) ∧ ∃ b : ℤ, d.y = (b : ℝ)) ∧
    (∀ (c : ℤ) (out δ : Vec2), 0 ≤ c → δ ≠ Vec2.zero → δ.roundV = Vec2.zero →
        scrollFn c out δ = (out, none)) := by
  constructor
  · intro c out δ o' d h
    have h2 : (scrollFn c out δ).2 = some d := by rw [h]
    rw [scrollFn_snd_some h2]
    exact ⟨⟨_, rfl⟩, ⟨_, rfl⟩⟩
  · intro c out δ hc _ hr
    have hcc : (0 : ℝ) ≤ (c : ℝ) := by exact_mod_cast hc
    have hx : pyRound δ.x = 0 := by
      have h1 := congrArg Vec2.x hr
      rw [Vec2.roundV_x, Vec2.zero_x] at h1
      exact_mod_cast h1
    have hy : pyRound δ.y = 0 := by
      have h1 := congrArg Vec2.y hr
      rw [Vec2.roundV_y, Vec2.zero_y] at h1
      exact_mod_cast h1
    have hrx : pyRound (signR δ.x * min |δ.x| (c : ℝ)) = 0 :=
      pyRound_eq_zero_of_abs_le
        (le_trans (abs_cap_le_left hcc) (abs_le_half_of_pyRound_eq_zero hx))
    have hry : pyRound (signR δ.y * min |δ.y| (c : ℝ)) = 0 :=
      pyRound_eq_zero_of_abs_le
        (le_trans (abs_cap_le_left hcc) (abs_le_half_of_pyRound_eq_zero hy))
    simp only [scrollFn]
    rw [if_pos]
    rw [Vec2.eq_iff]
    constructor
    · rw [Vec2.roundV_x, Vec2.absCap_x, hrx]; simp
    · rw [Vec2.roundV_y, Vec2.absCap_y, hry]; simp

/-- C10 witness: the delta (0, 2) really injected by `scrollFn` is
integer-valued, and a non-zero sub-half target (1/4, 0) is dropped
without an injection call. -/
theorem injection_integer_valued_witness :
    ((∃ a : ℤ, ((⟨0, 2⟩ : Vec2)).x = (a : ℝ)) ∧
      ∃ b : ℤ, ((⟨0, 2⟩ : Vec2)).y = (b : ℝ)) ∧
    scrollFn 100 Vec2.zero ⟨1 / 4, 0⟩ = (Vec2.zero, none) := by
  constructor
  · exact injection_integer_valued.1 100 Vec2.zero ⟨0, 2⟩ ⟨0, 2⟩ ⟨0, 2⟩
      scrollFn_zero_two
  · refine injection_integer_valued.2 100 Vec2.zero ⟨1 / 4, 0⟩ (by norm_num)
      ?_ ?_
    · rw [Ne, Vec2.eq_iff]
      norm_num [Vec2.zero]
    · rw [Vec2.eq_iff]
      constructor
      · rw [Vec2.roundV_x, Vec2.zero_x]
        have h4 : pyRound ((1 : ℝ) / 4) = 0 :=
          pyRound_eq_zero_of_abs_le (by rw [abs_of_nonneg] <;> norm_num)
        rw [h4]; norm_num
      · rw [Vec2.roundV_y, Vec2.zero_y]
        norm_num [pyRound_zero]

end Injection

section ConcreteRun

theorem keepRecent_nil (cur : ℝ) : keepRecent cur [] = [] := rfl

theorem keepRecent_append_recent (cur : ℝ) (es : List ScrollEvent)
    (ev : ScrollEvent) (h : cur - ev.time ≤ VelocityEstimateMaxDeltaTime) :
    keepRecent cur (es ++ [ev]) = keepRecent cur es ++ [ev] := by
  unfold keepRecent
  rw [List.reverse_append]
  simp only [List.reverse_singleton, List.singleton_append, List.takeWhile_cons]
  rw [if_pos (decide_eq_true h), List.reverse_cons]

theorem cfgA_gen : classifyGenerated false Vec2.zero ⟨0, 2⟩ = false := by
  norm_num [classifyGenerated, Vec2.signV, signR, Vec2.eq_iff, Vec2.zero]

theorem cfgA_step :
    estimateStep 0 (Vec2.zero, Vec2.zero) ⟨0, Vec2.zero, ⟨0, 2⟩, false⟩ =
      (⟨0, 2⟩, Vec2.zero) := by
  norm_num [estimateStep, orV, VelocityEstimateMaxDeltaTime, Vec2.eq_iff,
    Vec2.zero, Vec2.signV, signR, Vec2.smul]

theorem cfgA_est :
    estimate_current_scroll_velocity ([] ++ [⟨0, Vec2.zero, ⟨0, 2⟩, false⟩]) 0 =
      ([⟨0, Vec2.zero, ⟨0, 2⟩, false⟩], ⟨0, 2⟩, Vec2.zero) := by
  rw [List.nil_append]
  have hkeep : keepRecent 0 [(⟨0, Vec2.zero, ⟨0, 2⟩, false⟩ : ScrollEvent)] =
      [⟨0, Vec2.zero, ⟨0, 2⟩, false⟩] := by
    have h2 := keepRecent_append_recent 0 [] ⟨0, Vec2.zero, ⟨0, 2⟩, false⟩
      (by norm_num [VelocityEstimateMaxDeltaTime])
    rw [keepRecent_nil, List.nil_append] at h2
    exact h2
  simp only [estimate_current_scroll_velocity, hkeep, List.foldl_cons,
    List.foldl_nil, cfgA_step]
  norm_num [VelocityEstimateMaxDeltaTime]

theorem cfgA_l2 : (⟨0, 2⟩ : Vec2).l2 = 2 := by
  rw [Vec2.l2]
  norm_num

theorem cfgA_mult : acceleration_scheme_get_scroll_multiplier 2 0 2 = 2 := by
  rw [acceleration_scheme_get_scroll_multiplier, if_neg (by norm_num),
    Real.rpow_zero]
  norm_num

theorem on_scroll_cfgA_eval :
    on_scroll cfgA stEmpty 0 Vec2.zero ⟨0, 2⟩ =
      (⟨[⟨0, Vec2.zero, ⟨0, 2⟩, false⟩], ⟨0, 2⟩⟩, some ⟨0, 2⟩) := by
  have hout1 : outstandingAfterClassify false Vec2.zero ⟨0, 2⟩ = Vec2.zero := by
    rw [outstandingAfterClassify, cfgA_gen]
    simp
  have hscr : (⟨0, 2⟩ : Vec2).smul 2 - ⟨0, 2⟩ = ⟨0, 2⟩ := by
    rw [Vec2.eq_iff]
    norm_num [Vec2.smul]
  simp only [on_scroll, cfgA, stEmpty]
  rw [cfgA_gen, hout1, cfgA_est]
  simp only [Vec2.add_zero]
  rw [cfgA_l2, cfgA_mult]
  rw [if_pos (by norm_num)]
  rw [if_neg (by simp), hscr, scrollFn_zero_two]

end ConcreteRun

section Capping

/-- C8: every delta that `_on_scroll` actually passes to the output
collaborator's scroll primitive has per-axis absolute value at most the
configured maximum scroll delta, whatever the computed multiplier or
target was. -/
theorem injection_delta_capped (cfg : Config) (st : EngineState) (t : ℝ)
    (pos δ : Vec2) (st' : EngineState) (d : Vec2)
    (hc : 0 ≤ cfg.maxScrollDelta)
    (h : on_scroll cfg st t pos δ = (st', some d)) :
    |d.x| ≤ (cfg.maxScrollDelta : ℝ) ∧ |d.y| ≤ (cfg.maxScrollDelta : ℝ) := by
  have hcc : (0 : ℝ) ≤ (cfg.maxScrollDelta : ℝ) := by exact_mod_cast hc
  have h2 : ∃ out1 inj, (scrollFn cfg.maxScrollDelta out1 inj).2 = some d := by
    simp only [on_scroll] at h
    split at h
    · exact ⟨_, _, congrArg Prod.snd h⟩
    · have h3 := congrArg Prod.snd h
      simp at h3
  obtain ⟨out1, inj, h3⟩ := h2
  rw [scrollFn_snd_some h3]
  constructor
  · rw [Vec2.roundV_x, Vec2.absCap_x]
    exact abs_pyRound_le (abs_cap_le_right hcc)
  · rw [Vec2.roundV_y, Vec2.absCap_y]
    exact abs_pyRound_le (abs_cap_le_right hcc)

/-- C8 witness: the injection scenario really injects (0, 2), and the
bound holds for it with cap 100. -/
theorem injection_delta_capped_witness :
    (0 : ℤ) ≤ 100 ∧
    |((⟨0, 2⟩ : Vec2)).x| ≤ ((100 : ℤ) : ℝ) ∧
    |((⟨0, 2⟩ : Vec2)).y| ≤ ((100 : ℤ) : ℝ) := by
  have h := injection_delta_capped cfgA stEmpty 0 Vec2.zero ⟨0, 2⟩
    ⟨[⟨0, Vec2.zero, ⟨0, 2⟩, false⟩], ⟨0, 2⟩⟩ ⟨0, 2⟩ (by norm_num [cfgA])
    on_scroll_cfgA_eval
  exact ⟨by norm_num, h.1, h.2⟩

end Capping

section LogShape

/-- C2 counterexample: in a run where the engine decides to inject and
the injection is not suppressed (the handler returns the injected delta
(0, 2)), the event log afterwards holds exactly the one incoming user
event and no event with origin Generated at all: no synthetic event was
appended. -/
theorem injection_without_synthetic_event :
    (on_scroll cfgA stEmpty 0 Vec2.zero ⟨0, 2⟩).2 = some ⟨0, 2⟩ ∧
    ((on_scroll cfgA stEmpty 0 Vec2.zero ⟨0, 2⟩).1.scroll_events.map
      ScrollEvent.generated) = [false] := by
  rw [on_scroll_cfgA_eval]
  exact ⟨rfl, rfl⟩

/-- C2 (amended): the handler never appends a synthetic event for an
injection it performs; after `_on_scroll` the event log is exactly the
age-pruned previous events plus the single incoming event, whether or
not an injection happened — an injection is reflected only in the
outstanding generated vector and is seen by later estimates only through
its OS echo. -/
theorem on_scroll_log_is_input_only (cfg : Config) (st : EngineState) (t : ℝ)
    (pos δ : Vec2) :
    (on_scroll cfg st t pos δ).1.scroll_events =
      keepRecent t (st.scroll_events ++
        [⟨t, pos, δ, classifyGenerated cfg.discrete st.outstanding δ⟩]) := by
  simp only [on_scroll, estimate_current_scroll_velocity]
  split_ifs <;> rfl

end LogShape

section ZeroDelta

theorem estimateStep_zero_delta (cur : ℝ) (s : Vec2 × Vec2) (tm : ℝ) (p : Vec2)
    (g : Bool) :
    estimateStep cur s ⟨tm, p, Vec2.zero, g⟩ = (Vec2.zero, Vec2.zero) := by
  simp only [estimateStep]
  by_cases h1 : s.1 = Vec2.zero
  · by_cases h2 : s.2 = Vec2.zero
    · rw [orV, if_pos h1, orV, if_pos h2]
      rw [if_neg (by simp), h1, h2]
      split <;> simp [Vec2.eq_iff, Vec2.smul, Vec2.zero]
    · rw [orV, if_pos h1, orV, if_neg h2]
      rw [if_pos]
      rw [Vec2.signV_zero]
      exact fun he => h2 (Vec2.signV_eq_zero_iff.mp he.symm)
  · rw [orV, if_neg h1]
    rw [if_pos]
    rw [Vec2.signV_zero]
    exact fun he => h1 (Vec2.signV_eq_zero_iff.mp he.symm)

theorem fold_ending_zero (cur : ℝ) (K : List ScrollEvent) (tm : ℝ) (p : Vec2)
    (g : Bool) :
    (K ++ [(⟨tm, p, Vec2.zero, g⟩ : ScrollEvent)]).foldl (estimateStep cur)
      (Vec2.zero, Vec2.zero) = (Vec2.zero, Vec2.zero) := by
  rw [List.foldl_append]
  simp only [List.foldl_cons, List.foldl_nil]
  exact estimateStep_zero_delta cur _ tm p g

theorem on_scroll_zero_delta (cfg : Config) (st : EngineState) (t : ℝ)
    (pos : Vec2) :
    on_scroll cfg st t pos Vec2.zero =
      (⟨keepRecent t (st.scroll_events ++
          [⟨t, pos, Vec2.zero,
            classifyGenerated cfg.discrete st.outstanding Vec2.zero⟩]),
        st.outstanding⟩, none) := by
  have hout : outstandingAfterClassify cfg.discrete st.outstanding Vec2.zero =
      st.outstanding := by
    unfold outstandingAfterClassify
    split
    · simp only [Vec2.sub_zero]
      rw [if_neg (by simp)]
    · rfl
  have hkeep : keepRecent t (st.scroll_events ++
      [(⟨t, pos, Vec2.zero,
        classifyGenerated cfg.discrete st.outstanding Vec2.zero⟩ : ScrollEvent)]) =
      keepRecent t st.scroll_events ++
        [⟨t, pos, Vec2.zero,
          classifyGenerated cfg.discrete st.outstanding Vec2.zero⟩] :=
    keepRecent_append_recent t _ _ (by norm_num [VelocityEstimateMaxDeltaTime])
  have hl2z : (Vec2.zero).l2 = 0 := by
    rw [Vec2.l2]
    norm_num [Vec2.zero]
  simp only [on_scroll, estimate_current_scroll_velocity]
  rw [hout, hkeep, fold_ending_zero]
  rw [show ((Vec2.zero, Vec2.zero) : Vec2 × Vec2).1 = Vec2.zero from rfl]
  rw [show ((Vec2.zero, Vec2.zero) : Vec2 × Vec2).2 = Vec2.zero from rfl]
  simp only [Vec2.zero_smul, Vec2.add_zero, hl2z]
  rw [acceleration_scheme_get_scroll_multiplier,
    if_pos (show (0 : ℝ) ≤ 1 by norm_num)]
  rw [if_neg (show ¬((1 : ℝ) > 1 ∧ (0 : ℝ) * 1 > (0 : ℝ)) by norm_num)]

/-- C4 (amended): a zero-delta notification is NOT dropped: the handler
appends it to the event log like any other event; however it never
changes the outstanding generated vector and never causes an injection
(the velocity estimate after it is zero, so the multiplier stays at its
neutral floor). -/
theorem zero_delta_logged_but_inert (cfg : Config) (st : EngineState) (t : ℝ)
    (pos : Vec2) :
    (on_scroll cfg st t pos Vec2.zero).1.scroll_events =
      keepRecent t (st.scroll_events ++
        [⟨t, pos, Vec2.zero,
          classifyGenerated cfg.discrete st.outstanding Vec2.zero⟩]) ∧
    (on_scroll cfg st t pos Vec2.zero).1.outstanding = st.outstanding ∧
    (on_scroll cfg st t pos Vec2.zero).2 = none := by
  rw [on_scroll_zero_delta]
  exact ⟨rfl, rfl, rfl⟩

/-- C4 counterexample: from the empty state, a zero-delta notification
leaves one retained event in the log — with delta the zero vector, and
even classified Generated on a continuous backend — contradicting the
claim that the handler ignores it and that a retained event's delta is
never zero. -/
theorem zero_delta_event_retained :
    (on_scroll cfgA stEmpty 0 Vec2.zero Vec2.zero).1.scroll_events =
      [⟨0, Vec2.zero, Vec2.zero, true⟩] ∧
    [(⟨0, Vec2.zero, Vec2.zero, true⟩ : ScrollEvent)] ≠ [] := by
  have hg : classifyGenerated false Vec2.zero Vec2.zero = true := by
    rw [classifyGenerated, if_neg (by simp), if_pos rfl]
  constructor
  · rw [on_scroll_zero_delta]
    simp only [cfgA, stEmpty]
    rw [hg]
    have h2 := keepRecent_append_recent 0 []
      (⟨0, Vec2.zero, Vec2.zero, true⟩ : ScrollEvent)
      (by norm_num [VelocityEstimateMaxDeltaTime])
    rw [keepRecent_nil, List.nil_append] at h2
    rw [List.nil_append, h2]
  · simp

end ZeroDelta

section Estimator

theorem keepRecent_of_all (cur : ℝ) (es : List ScrollEvent)
    (h : ∀ ev ∈ es, cur - ev.time ≤ VelocityEstimateMaxDeltaTime) :
    keepRecent cur es = es := by
  induction es using List.reverseRecOn with
  | nil => rfl
  | append_singleton K ev ih =>
      rw [keepRecent_append_recent cur K ev (h ev (by simp))]
      rw [ih fun e he => h e (by simp [he])]

theorem threeEvents_eval :
    estimate_current_scroll_velocity threeEvents 0 =
      (threeEvents, Vec2.zero, Vec2.zero) := by
  have hk : keepRecent 0 threeEvents = threeEvents := by
    apply keepRecent_of_all
    intro ev he
    simp only [threeEvents, List.mem_cons, List.not_mem_nil, or_false] at he
    rcases he with h | h | h <;> subst h <;>
      norm_num [VelocityEstimateMaxDeltaTime]
  have h1 : estimateStep 0 (Vec2.zero, Vec2.zero)
      (⟨0, Vec2.zero, ⟨0, 3⟩, false⟩ : ScrollEvent) = (⟨0, 3⟩, Vec2.zero) := by
    norm_num [estimateStep, orV, VelocityEstimateMaxDeltaTime, Vec2.eq_iff,
      Vec2.zero, Vec2.signV, signR, Vec2.smul]
  have h2 : estimateStep 0 (⟨0, 3⟩, Vec2.zero)
      (⟨0, Vec2.zero, ⟨0, 2⟩, false⟩ : ScrollEvent) = (⟨0, 5⟩, Vec2.zero) := by
    norm_num [estimateStep, orV, VelocityEstimateMaxDeltaTime, Vec2.eq_iff,
      Vec2.zero, Vec2.signV, signR, Vec2.smul]
  have h3 : estimateStep 0 (⟨0, 5⟩, Vec2.zero)
      (⟨0, Vec2.zero, ⟨0, -1⟩, false⟩ : ScrollEvent) =
      (Vec2.zero, Vec2.zero) := by
    norm_num [estimateStep, orV, VelocityEstimateMaxDeltaTime, Vec2.eq_iff,
      Vec2.zero, Vec2.signV, signR, Vec2.smul]
  simp only [estimate_current_scroll_velocity, hk]
  simp only [threeEvents, List.foldl_cons, List.foldl_nil, h1, h2, h3]
  norm_num [VelocityEstimateMaxDeltaTime, Vec2.zero_smul]

/-- C1 counterexample: for the events [+3, +2, -1] on the y axis, all
within the window, the estimator returns the ZERO user velocity — not
the claimed velocity (0, -1) scaled by decay — because the reversal
event is discarded, not accumulated. -/
theorem estimator_drops_reversal_event :
    (estimate_current_scroll_velocity threeEvents 0).2.1 = Vec2.zero ∧
    (Vec2.zero : Vec2) ≠ ⟨0, -1⟩ := by
  constructor
  · rw [threeEvents_eval]
  · rw [Ne, Vec2.eq_iff]
    norm_num [Vec2.zero]

/-- C1 (amended): when an event's delta sign disagrees with the sign of
the current non-zero accumulator, both accumulators are reset to zero
and the reversal event itself is DISCARDED (its delta is not added to
the fresh accumulation); in particular for the events [+3, +2, -1] the
returned velocities after the -1 event are the zero vector. -/
theorem estimator_reset_discards :
    (∀ (cur : ℝ) (s : Vec2 × Vec2) (ev : ScrollEvent),
        ev.delta.signV ≠ (orV s.1 (orV s.2 ev.delta)).signV →
        estimateStep cur s ev = (Vec2.zero, Vec2.zero)) ∧
    (estimate_current_scroll_velocity threeEvents 0).2.1 = Vec2.zero ∧
    (estimate_current_scroll_velocity threeEvents 0).2.2 = Vec2.zero := by
  refine ⟨?_, ?_, ?_⟩
  · intro cur s ev h
    simp only [estimateStep]
    rw [if_pos h]
  · rw [threeEvents_eval]
  · rw [threeEvents_eval]

/-- C1 witness: the reset-and-discard step applied at the concrete
reversal event of the scenario. -/
theorem estimator_reset_discards_witness :
    estimateStep 0 (⟨0, 5⟩, Vec2.zero)
      (⟨0, Vec2.zero, ⟨0, -1⟩, false⟩ : ScrollEvent) =
      (Vec2.zero, Vec2.zero) :=
  estimator_reset_discards.1 0 (⟨0, 5⟩, Vec2.zero) ⟨0, Vec2.zero, ⟨0, -1⟩, false⟩
    (by norm_num [orV, Vec2.eq_iff, Vec2.zero, Vec2.signV, signR])

end Estimator

section LogBound

theorem appendBurst_eq (n : ℕ) : appendBurst n = List.replicate n burstEvent := by
  induction n with
  | zero => rfl
  | succ n ih =>
      rw [appendBurst, ih]
      rw [keepRecent_of_all]
      · rw [← List.replicate_succ']
      · intro ev he
        rcases List.mem_append.mp he with h | h
        · rw [List.eq_of_mem_replicate h]
          norm_num [burstEvent, VelocityEstimateMaxDeltaTime]
        · rw [List.mem_singleton.mp h]
          norm_num [burstEvent, VelocityEstimateMaxDeltaTime]

theorem appendBurst_length (n : ℕ) : (appendBurst n).length = n := by
  rw [appendBurst_eq, List.length_replicate]

/-- C6 counterexample: after 1001 handler appends whose timestamps all
lie within the window, the log retains 1001 events — more than the
claimed hard cap of 1000. -/
theorem event_log_exceeds_cap :
    (appendBurst 1001).length = 1001 ∧ 1000 < (appendBurst 1001).length := by
  refine ⟨appendBurst_length 1001, ?_⟩
  rw [appendBurst_length]
  norm_num

/-- C6 (amended): the event log is bounded only by age-based pruning on
each append; there is no secondary hard cap, so under timestamp
anomalies (all events within the window) the retained count after n
appends is exactly n and grows without bound. -/
theorem event_log_unbounded : ∀ n : ℕ, (appendBurst n).length = n := fun n =>
  appendBurst_length n

end LogBound

end MouseAccel
